import Mathlib

/-!
Shallow embedding of the `functionalparser` parser-combinator library.

The exported module (`src/functionalparser/__init__.py`) works with parsers of
shape `parser(in_str) -> (success, value, remainder)`; the legacy module
(`src/functionalparser/combinators.py`) works with the older 2-tuple shape
`parser(in_str) -> (value, remainder)`.

Modelling choices:
* Python strings are `List Char`.
* The dynamically typed parse values are the inductive `Val`; the Python value
  `None` is `Option.none` in a `Option Val` slot.
* Python exceptions raised by a transformer are modelled by giving the
  transformer the type `Option Val → Option (Option Val)`: the outer `none` is
  a raised exception, `some w` is a normal return of `w`.
* `finalize` (and construction of `chain`/`chain_join`/`any_of`, which raise
  `ValueError` when given zero parsers) return `Except Unit _`, with
  `Except.error ()` standing for a raised error.
* The `while success` loops of `star`/`star_join` are embedded with explicit
  fuel: `starLoop`/`starJoinLoop` return `none` when the loop has not finished
  within the given fuel.  The parser-shaped `star`/`star_join` run the loop
  with fuel `in_str.length`, which is shown sufficient whenever the
  sub-parser consumes at least one character on success; the fuel-exhausted
  fallback branch (which Python never reaches in that case, and on which
  Python instead fails to terminate) is the subject of the termination
  theorems below.
-/

namespace FunctionalParser

/-- Dynamically typed parse values (the Python `Any` flowing through the
library): strings, integers, and lists of optional values (a Python list may
hold `None` entries, e.g. from `chain` without `skip_none_result`). -/
inductive Val : Type where
  | vstr : List Char → Val
  | vint : Int → Val
  | vlist : List (Option Val) → Val

/-- A Python string. -/
abbrev Str := List Char

/-- `ParseResultAny`: `(success, value, remainder)`; `value = none` is Python
`None`. -/
abbrev PResult := Bool × Option Val × Str

/-- `ParserAny`: a parser in the exported 3-tuple protocol. -/
abbrev Parser := Str → PResult

-- COMBINATORS (src/functionalparser/__init__.py) ----------------------------

/-- The `while success` loop of `star`, with fuel: starting from the first
result `r` of the sub-parser, keep applying `parser` to the remainder while it
succeeds, accumulating the values.  `none` means the loop did not finish
within `fuel` iterations. -/
def starLoop (parser : Parser) : Nat → List (Option Val) → PResult → Option (List (Option Val) × Str)
  | _, results, (false, _, rest) => some (results, rest)
  | 0, _, (true, _, _) => none
  | fuel + 1, results, (true, result, rest) => starLoop parser fuel (results ++ [result]) (parser rest)

/-- `star(parser)`: repeats `parser` until it fails, returning the list of
results; always reports success.  Fuel `in_str.length` suffices whenever
`parser` consumes on success; on fuel exhaustion (where Python's loop would
not have terminated within that many iterations) we return the empty list and
the untouched input. -/
def star (parser : Parser) : Parser := fun in_str =>
  match starLoop parser in_str.length [] (parser in_str) with
  | some (results, rest) => (true, some (Val.vlist results), rest)
  | none => (true, some (Val.vlist []), in_str)

/-- `joined_result += result` for a string-valued result.  The `none` branch
matches `chain_join`'s explicit `if result is not None` skip; for `star_join`
(which has no such check) a non-string result would raise `TypeError` in
Python, so theorems about `star_join` assume string-valued sub-parsers. -/
def joinVal (joined : Str) : Option Val → Str
  | some (Val.vstr cs) => joined ++ cs
  | _ => joined

/-- The `while success` loop of `star_join`, with fuel. -/
def starJoinLoop (parser : Parser) : Nat → Str → PResult → Option (Str × Str)
  | _, joined, (false, _, rest) => some (joined, rest)
  | 0, _, (true, _, _) => none
  | fuel + 1, joined, (true, result, rest) => starJoinLoop parser fuel (joinVal joined result) (parser rest)

/-- `star_join(parser)`: like `star` but concatenates string results. -/
def star_join (parser : Parser) : Parser := fun in_str =>
  match starJoinLoop parser in_str.length [] (parser in_str) with
  | some (joined, rest) => (true, some (Val.vstr joined), rest)
  | none => (true, some (Val.vstr []), in_str)

/-- `optional(parser)`: identical to `parser` but always reports success. -/
def optional (parser : Parser) : Parser := fun in_str =>
  match parser in_str with
  | (_, result, rest) => (true, result, rest)

/-- The `for p in parsers` loop of `chain_parser`: thread the remainder
through the parsers, collecting results (skipping `None` results when
`skip_none_result` is set); on any failure return `(False, None, in_str)`. -/
def chainLoop (skip_none_result : Bool) (in_str : Str) : List Parser → List (Option Val) → Str → PResult
  | [], results, rest => (true, some (Val.vlist results), rest)
  | p :: ps, results, rest =>
    match p rest with
    | (false, _, _) => (false, none, in_str)
    | (true, result, rest') =>
        chainLoop skip_none_result in_str ps
          (if result.isSome || !skip_none_result then results ++ [result] else results) rest'

/-- The inner `chain_parser` closure built by `chain`. -/
def chainP (parsers : List Parser) (skip_none_result : Bool) : Parser := fun in_str =>
  chainLoop skip_none_result in_str parsers [] in_str

/-- `chain(*parsers, skip_none_result)`: raises `ValueError` at construction
time when given zero parsers, otherwise returns `chain_parser`. -/
def chain (parsers : List Parser) (skip_none_result : Bool) : Except Unit Parser :=
  if parsers.length = 0 then Except.error () else Except.ok (chainP parsers skip_none_result)

/-- The `for p in parsers` loop of `chain_parser_join`: like `chainLoop` but
concatenating non-`None` string results. -/
def chainJoinLoop (in_str : Str) : List Parser → Str → Str → PResult
  | [], joined, rest => (true, some (Val.vstr joined), rest)
  | p :: ps, joined, rest =>
    match p rest with
    | (false, _, _) => (false, none, in_str)
    | (true, result, rest') => chainJoinLoop in_str ps (joinVal joined result) rest'

/-- The inner `chain_parser_join` closure built by `chain_join`. -/
def chainJoinP (parsers : List Parser) : Parser := fun in_str =>
  chainJoinLoop in_str parsers [] in_str

/-- `chain_join(*parsers)`: raises `ValueError` at construction time when
given zero parsers, otherwise returns `chain_parser_join`. -/
def chain_join (parsers : List Parser) : Except Unit Parser :=
  if parsers.length = 0 then Except.error () else Except.ok (chainJoinP parsers)

/-- The `for parser in parsers` loop of `any_of_parser`: return the first
success verbatim; if none succeed, return `(not at_least_one, None, in_str)`. -/
def anyOfLoop (at_least_one : Bool) (in_str : Str) : List Parser → PResult
  | [] => (!at_least_one, none, in_str)
  | parser :: parsers =>
    match parser in_str with
    | (true, result, rest) => (true, result, rest)
    | (false, _, _) => anyOfLoop at_least_one in_str parsers

/-- The inner `any_of_parser` closure built by `any_of`. -/
def anyOfP (parsers : List Parser) (at_least_one : Bool) : Parser := fun in_str =>
  anyOfLoop at_least_one in_str parsers

/-- `any_of(*parsers, at_least_one)`: raises `ValueError` at construction time
when given zero parsers, otherwise returns `any_of_parser`. -/
def any_of (parsers : List Parser) (at_least_one : Bool) : Except Unit Parser :=
  if parsers.length = 0 then Except.error () else Except.ok (anyOfP parsers at_least_one)

/-- `transform(parser, transformer)`: on success of `parser` apply
`transformer` to the result; if the transformer raises (`none`), report
failure with the original input as remainder; on failure of `parser`, return
its triple unchanged. -/
def transform (parser : Parser) (transformer : Option Val → Option (Option Val)) : Parser :=
  fun in_str =>
    match parser in_str with
    | (true, result, rest) =>
      match transformer result with
      | some result' => (true, result', rest)
      | none => (false, none, in_str)
    | (false, result, rest) => (false, result, rest)

/-- `fails(parser)`: succeeds iff `parser` fails, never produces a value,
always returns the whole input. -/
def fails (parser : Parser) : Parser := fun in_str =>
  (!(parser in_str).1, none, in_str)

/-- `finalize(parser, allow_unparsed_remaining)`: returns only the result;
raises `ValueError` (`Except.error ()`) on parse failure, or when unparsed
input remains and `allow_unparsed_remaining` is not set. -/
def finalize (parser : Parser) (allow_unparsed_remaining : Bool) :
    Str → Except Unit (Option Val) := fun in_str =>
  match parser in_str with
  | (false, _, _) => Except.error ()
  | (true, result, rest) =>
    if rest.length ≠ 0 ∧ allow_unparsed_remaining = false then Except.error ()
    else Except.ok result

-- GENERATORS ----------------------------------------------------------------

/-- `take_n(n)`: takes the first `n` characters; fails if fewer remain. -/
def take_n (n : Nat) : Parser := fun in_str =>
  if n ≤ in_str.length then (true, some (Val.vstr (in_str.take n)), in_str.drop n)
  else (false, none, in_str)

/-- `get_char_in(character_set)`: takes the first character if it is in the
given set. -/
def get_char_in (character_set : Str) : Parser := fun in_str =>
  match in_str with
  | c :: rest =>
    if c ∈ character_set then (true, some (Val.vstr [c]), rest) else (false, none, c :: rest)
  | [] => (false, none, [])

/-- `get(prefix)`: extracts the given literal from the beginning of the input
if present. -/
def get (pre : Str) : Parser := fun in_str =>
  if pre <+: in_str then (true, some (Val.vstr pre), in_str.drop pre.length)
  else (false, none, in_str)

-- PARSERS -------------------------------------------------------------------

/-- `digit`: first character if numeric. -/
def digit : Parser := get_char_in "0123456789".toList

/-- `single_whitespace`: first character if whitespace (`str.isspace`,
modelled by `Char.isWhitespace`). -/
def single_whitespace : Parser := fun in_str =>
  match in_str with
  | c :: rest =>
    if c.isWhitespace then (true, some (Val.vstr [c]), rest) else (false, none, c :: rest)
  | [] => (false, none, [])

/-- One step of `''.join`: extract a string element, `TypeError` otherwise. -/
def strOf : Option Val → Option Str
  | some (Val.vstr cs) => some cs
  | _ => none

/-- `''.join` over the elements of a list: `none` models the `TypeError`
raised on a non-string element. -/
def joinList : List (Option Val) → Option Str
  | [] => some []
  | v :: vs =>
    match strOf v, joinList vs with
    | some c, some r => some (c ++ r)
    | _, _ => none

/-- The transformer `lambda x: ''.join(x)` used by `all_whitespace`: joins a
list of strings; raises (outer `none`) on anything else. -/
def pyJoin : Option Val → Option (Option Val)
  | some (Val.vlist vs) => (joinList vs).map (fun cs => some (Val.vstr cs))
  | _ => none

/-- `all_whitespace`: as much leading whitespace as possible (possibly none),
joined into one string; always succeeds. -/
def all_whitespace : Parser := transform (star single_whitespace) pyJoin

/-- `IgnoreWhitespaceType`: where whitespace should be ignored around an
item. -/
inductive IgnoreWhitespaceType where
  | BEFORE
  | AFTER
  | AROUND
deriving DecidableEq

/-- `ignore_whitespace(parser, ignore_whitespace_type)`: consumes and discards
all whitespace before and/or after the given parser; on inner failure, rolls
back to the original (untrimmed) input. -/
def ignore_whitespace (parser : Parser) (iwt : IgnoreWhitespaceType) : Parser := fun in_str =>
  match parser (if iwt = .BEFORE ∨ iwt = .AROUND then (all_whitespace in_str).2.2 else in_str) with
  | (false, _, _) => (false, none, in_str)
  | (true, result, rest1) =>
    (true, result, if iwt = .AFTER ∨ iwt = .AROUND then (all_whitespace rest1).2.2 else rest1)

/-- `eof`: succeeds iff the input is empty; never consumes, never produces a
value. -/
def eof : Parser := fun in_str => (in_str.isEmpty, none, in_str)

/-- `noop`: does nothing, but succeeds. -/
def noop : Parser := fun _in_str => (true, none, _in_str)

/-- Digit accumulator of the integer conversion. -/
def digitsToNatAux : Nat → Str → Option Nat
  | acc, [] => some acc
  | acc, c :: rest =>
    if c ∈ "0123456789".toList then digitsToNatAux (acc * 10 + (c.toNat - '0'.toNat)) rest
    else none

/-- The Python built-in `int(str)` on the strings reachable in `parse_int`
(an optional single leading sign followed by digit characters): `none` models
the `ValueError` raised on an empty, sign-only, or non-numeric string. -/
def pyIntOfStr : Str → Option Int
  | [] => none
  | c :: rest =>
    if c = '-' then
      if rest.isEmpty then none else (digitsToNatAux 0 rest).map (fun n => -(Int.ofNat n))
    else if c = '+' then
      if rest.isEmpty then none else (digitsToNatAux 0 rest).map (fun n => Int.ofNat n)
    else (digitsToNatAux 0 (c :: rest)).map (fun n => Int.ofNat n)

/-- The input with one leading `-`/`+` removed, if present: after the
optional-sign step of `parse_int`, the digit run is attempted here. -/
def dropSign : Str → Str
  | [] => []
  | c :: rest => if c = '-' ∨ c = '+' then rest else c :: rest

/-- The transformer `int` as used by `parse_int`. -/
def pyInt : Option Val → Option (Option Val)
  | some (Val.vstr cs) => (pyIntOfStr cs).map (fun n => some (Val.vint n))
  | _ => none

/-- `parse_int`: optional sign, digit run, joined and converted by `int`. -/
def parse_int : Parser :=
  transform (chainJoinP [anyOfP [get ['-'], get ['+']] false, star_join digit]) pyInt

-- LEGACY 2-TUPLE MODULE (src/functionalparser/combinators.py) ---------------

/-- Legacy `ParseResultAny`: `(value, remainder)`; failure is `value = None`. -/
abbrev PResultL := Option Val × Str

/-- A parser in the legacy 2-tuple protocol. -/
abbrev ParserL := Str → PResultL

/-- The legacy `transform` of `combinators.py`: applies the transformer when
the result is not `None`; it has no exception handling, so a raising
transformer (`none`) propagates as `Except.error ()` to the caller. -/
def transformL (parser : ParserL) (transformer : Option Val → Option (Option Val)) :
    Str → Except Unit PResultL := fun in_str =>
  match parser in_str with
  | (some result, rest) =>
    match transformer (some result) with
    | some result' => Except.ok (result', rest)
    | none => Except.error ()
  | (none, rest) => Except.ok (none, rest)

/-- Legacy `get_in` of `generators.py`, used to build a legacy parser for the
witness of the legacy-`transform` theorem. -/
def get_in (character_set : Str) : ParserL := fun in_str =>
  match in_str with
  | c :: rest => if c ∈ character_set then (some (Val.vstr [c]), rest) else (none, c :: rest)
  | [] => (none, [])

-- RESULT-PROTOCOL PREDICATES ------------------------------------------------

/-- The remainder returned by `p` is always a suffix of its input. -/
def SuffixOk (p : Parser) : Prop := ∀ s, (p s).2.2 <:+ s

/-- On failure, `p` returns exactly its input as the remainder. -/
def RollsBack (p : Parser) : Prop := ∀ s, (p s).1 = false → (p s).2.2 = s

/-- The result protocol of §4.1: suffix remainder plus rollback on failure. -/
def Protocol (p : Parser) : Prop := SuffixOk p ∧ RollsBack p

/-- `p` consumes at least one character whenever it succeeds. -/
def ConsumesOnSuccess (p : Parser) : Prop :=
  ∀ s, (p s).1 = true → (p s).2.2.length < s.length

/-- On success, `p`'s value is a (non-`None`) Python string. -/
def StrValued (p : Parser) : Prop :=
  ∀ s, (p s).1 = true → ∃ cs, (p s).2.1 = some (Val.vstr cs)

/-- The value is present (non-`None`) exactly when `success` is true. -/
def ValuePresence (p : Parser) : Prop := ∀ s, (p s).2.1.isSome = (p s).1

/-- The `while` loop of Python's `star(p)(s)` exits after finitely many
iterations. -/
def StarTerminates (p : Parser) (s : Str) : Prop :=
  ∃ fuel out, starLoop p fuel [] (p s) = some out

/-- The `while` loop of Python's `star_join(p)(s)` exits after finitely many
iterations. -/
def StarJoinTerminates (p : Parser) (s : Str) : Prop :=
  ∃ fuel out, starJoinLoop p fuel [] (p s) = some out

-- HELPER LEMMAS: generators and base parsers --------------------------------

theorem get_char_in_protocol (cset : Str) : Protocol (get_char_in cset) := by
  constructor
  · intro s
    cases s with
    | nil => exact List.suffix_refl _
    | cons c t =>
      by_cases h : c ∈ cset <;> simp [get_char_in, h, List.suffix_cons]
  · intro s
    cases s with
    | nil => intro _; rfl
    | cons c t =>
      by_cases h : c ∈ cset <;> simp [get_char_in, h]

theorem get_char_in_consumes (cset : Str) : ConsumesOnSuccess (get_char_in cset) := by
  intro s
  cases s with
  | nil => simp [get_char_in]
  | cons c t =>
    by_cases h : c ∈ cset <;> simp [get_char_in, h]

theorem get_char_in_strValued (cset : Str) : StrValued (get_char_in cset) := by
  intro s
  cases s with
  | nil => simp [get_char_in]
  | cons c t =>
    by_cases h : c ∈ cset <;> simp [get_char_in, h]

theorem digit_protocol : Protocol digit := get_char_in_protocol _

theorem digit_consumes : ConsumesOnSuccess digit := get_char_in_consumes _

theorem single_whitespace_protocol : Protocol single_whitespace := by
  constructor
  · intro s
    cases s with
    | nil => exact List.suffix_refl _
    | cons c t =>
      by_cases h : c.isWhitespace <;> simp [single_whitespace, h, List.suffix_cons]
  · intro s
    cases s with
    | nil => intro _; rfl
    | cons c t =>
      by_cases h : c.isWhitespace <;> simp [single_whitespace, h]

theorem single_whitespace_consumes : ConsumesOnSuccess single_whitespace := by
  intro s
  cases s with
  | nil => simp [single_whitespace]
  | cons c t =>
    by_cases h : c.isWhitespace <;> simp [single_whitespace, h]

theorem single_whitespace_strValued : StrValued single_whitespace := by
  intro s
  cases s with
  | nil => simp [single_whitespace]
  | cons c t =>
    by_cases h : c.isWhitespace <;> simp [single_whitespace, h]

/-- A failing `single_whitespace` returns `(False, None, input)` exactly. -/
theorem single_whitespace_fail_eq (s : Str) (h : (single_whitespace s).1 = false) :
    single_whitespace s = (false, none, s) := by
  cases s with
  | nil => rfl
  | cons c t =>
    by_cases hc : c.isWhitespace
    · simp [single_whitespace, hc] at h
    · simp [single_whitespace, hc]

theorem take_n_protocol (n : Nat) : Protocol (take_n n) := by
  constructor
  · intro s
    by_cases h : n ≤ s.length <;> simp [take_n, h, List.drop_suffix]
  · intro s
    by_cases h : n ≤ s.length <;> simp [take_n, h]

theorem get_protocol (pre : Str) : Protocol (get pre) := by
  constructor
  · intro s
    by_cases h : pre <+: s <;> simp [get, h, List.drop_suffix]
  · intro s
    by_cases h : pre <+: s <;> simp [get, h]

theorem eof_protocol : Protocol eof := by
  exact ⟨fun s => List.suffix_refl _, fun s _ => rfl⟩

theorem noop_protocol : Protocol noop := by
  exact ⟨fun s => List.suffix_refl _, fun s _ => rfl⟩

-- HELPER LEMMAS: the star loops ---------------------------------------------

/-- If the loop finishes, the final remainder is a suffix of any string the
current remainder is a suffix of. -/
theorem starLoop_suffix (p : Parser) (hp : SuffixOk p) :
    ∀ fuel acc res (t : Str), res.2.2 <:+ t →
      ∀ vs r, starLoop p fuel acc res = some (vs, r) → r <:+ t := by
  intro fuel
  induction fuel with
  | zero =>
    intro acc res t hsuf vs r h
    obtain ⟨succ, v, rest⟩ := res
    cases succ with
    | false =>
      simp [starLoop] at h
      simpa [← h.2] using hsuf
    | true => simp [starLoop] at h
  | succ fuel ih =>
    intro acc res t hsuf vs r h
    obtain ⟨succ, v, rest⟩ := res
    cases succ with
    | false =>
      simp [starLoop] at h
      simpa [← h.2] using hsuf
    | true =>
      simp only [starLoop] at h
      exact ih _ (p rest) t ((hp rest).trans hsuf) vs r h

/-- With a sub-parser that consumes on success, fuel `t.length` makes the
loop finish. -/
theorem starLoop_total (p : Parser) (hp : ConsumesOnSuccess p) :
    ∀ fuel (t : Str) acc, t.length ≤ fuel →
      ∃ out, starLoop p fuel acc (p t) = some out := by
  intro fuel
  induction fuel with
  | zero =>
    intro t acc hlen
    have ht : t = [] := List.length_eq_zero.mp (Nat.le_zero.mp hlen)
    subst ht
    rcases hres : p [] with ⟨succ, v, rest⟩
    cases succ with
    | false => exact ⟨(acc, rest), by simp [hres, starLoop]⟩
    | true =>
      have hc := hp [] (by simp [hres])
      simp [hres] at hc
  | succ fuel ih =>
    intro t acc hlen
    rcases hres : p t with ⟨succ, v, rest⟩
    cases succ with
    | false => exact ⟨(acc, rest), by simp [hres, starLoop]⟩
    | true =>
      have hc := hp t (by simp [hres])
      simp [hres] at hc
      obtain ⟨out, hout⟩ := ih rest (acc ++ [v]) (by omega)
      exact ⟨out, by simp [hres, starLoop, hout]⟩

/-- The remainder a finished loop returns came from a *failed* call of the
sub-parser (or from a failed initial result). -/
theorem starLoop_lastFail (p : Parser) :
    ∀ fuel acc res vs r, starLoop p fuel acc res = some (vs, r) →
      (res.1 = false ∧ res.2.2 = r) ∨ ∃ t, (p t).1 = false ∧ (p t).2.2 = r := by
  intro fuel
  induction fuel with
  | zero =>
    intro acc res vs r h
    obtain ⟨succ, v, rest⟩ := res
    cases succ with
    | false =>
      simp [starLoop] at h
      exact Or.inl ⟨rfl, h.2⟩
    | true => simp [starLoop] at h
  | succ fuel ih =>
    intro acc res vs r h
    obtain ⟨succ, v, rest⟩ := res
    cases succ with
    | false =>
      simp [starLoop] at h
      exact Or.inl ⟨rfl, h.2⟩
    | true =>
      simp only [starLoop] at h
      rcases ih _ (p rest) vs r h with hfail | hex
      · exact Or.inr ⟨rest, hfail⟩
      · exact Or.inr hex

/-- The collected list extends the accumulator; it extends it strictly when
the current result is a success. -/
theorem starLoop_acc (p : Parser) :
    ∀ fuel acc res vs r, starLoop p fuel acc res = some (vs, r) →
      ∃ tail, vs = acc ++ tail ∧ (res.1 = true → tail ≠ []) := by
  intro fuel
  induction fuel with
  | zero =>
    intro acc res vs r h
    obtain ⟨succ, v, rest⟩ := res
    cases succ with
    | false =>
      simp [starLoop] at h
      exact ⟨[], by simp [← h.1]⟩
    | true => simp [starLoop] at h
  | succ fuel ih =>
    intro acc res vs r h
    obtain ⟨succ, v, rest⟩ := res
    cases succ with
    | false =>
      simp [starLoop] at h
      exact ⟨[], by simp [← h.1]⟩
    | true =>
      simp only [starLoop] at h
      obtain ⟨tail, htail, _⟩ := ih _ (p rest) vs r h
      exact ⟨v :: tail, by simp [htail], by simp⟩

/-- Elements collected by the loop from a string-valued sub-parser are
strings, provided the accumulator's elements are. -/
theorem starLoop_vals (p : Parser) (hv : StrValued p) :
    ∀ fuel acc res vs r,
      (res.1 = true → ∃ cs, res.2.1 = some (Val.vstr cs)) →
      (∀ v ∈ acc, ∃ cs, v = some (Val.vstr cs)) →
      starLoop p fuel acc res = some (vs, r) →
      ∀ v ∈ vs, ∃ cs, v = some (Val.vstr cs) := by
  intro fuel
  induction fuel with
  | zero =>
    intro acc res vs r hres hacc h
    obtain ⟨succ, v, rest⟩ := res
    cases succ with
    | false =>
      simp [starLoop] at h
      exact h.1 ▸ hacc
    | true => simp [starLoop] at h
  | succ fuel ih =>
    intro acc res vs r hres hacc h
    obtain ⟨succ, v, rest⟩ := res
    cases succ with
    | false =>
      simp [starLoop] at h
      exact h.1 ▸ hacc
    | true =>
      simp only [starLoop] at h
      refine ih _ (p rest) vs r (hv rest) ?_ h
      intro w hw
      rcases List.mem_append.mp hw with hmem | hmem
      · exact hacc w hmem
      · obtain ⟨cs, hcs⟩ := hres rfl
        simp at hmem
        exact ⟨cs, by simpa [hmem] using hcs⟩

/-- `star_join` loop: suffix preservation, as for `starLoop`. -/
theorem starJoinLoop_suffix (p : Parser) (hp : SuffixOk p) :
    ∀ fuel acc res (t : Str), res.2.2 <:+ t →
      ∀ cs r, starJoinLoop p fuel acc res = some (cs, r) → r <:+ t := by
  intro fuel
  induction fuel with
  | zero =>
    intro acc res t hsuf cs r h
    obtain ⟨succ, v, rest⟩ := res
    cases succ with
    | false =>
      simp [starJoinLoop] at h
      simpa [← h.2] using hsuf
    | true => simp [starJoinLoop] at h
  | succ fuel ih =>
    intro acc res t hsuf cs r h
    obtain ⟨succ, v, rest⟩ := res
    cases succ with
    | false =>
      simp [starJoinLoop] at h
      simpa [← h.2] using hsuf
    | true =>
      simp only [starJoinLoop] at h
      exact ih _ (p rest) t ((hp rest).trans hsuf) cs r h

/-- `star_join` loop: totality under consumption, as for `starLoop`. -/
theorem starJoinLoop_total (p : Parser) (hp : ConsumesOnSuccess p) :
    ∀ fuel (t : Str) acc, t.length ≤ fuel →
      ∃ out, starJoinLoop p fuel acc (p t) = some out := by
  intro fuel
  induction fuel with
  | zero =>
    intro t acc hlen
    have ht : t = [] := List.length_eq_zero.mp (Nat.le_zero.mp hlen)
    subst ht
    rcases hres : p [] with ⟨succ, v, rest⟩
    cases succ with
    | false => exact ⟨(acc, rest), by simp [hres, starJoinLoop]⟩
    | true =>
      have hc := hp [] (by simp [hres])
      simp [hres] at hc
  | succ fuel ih =>
    intro t acc hlen
    rcases hres : p t with ⟨succ, v, rest⟩
    cases succ with
    | false => exact ⟨(acc, rest), by simp [hres, starJoinLoop]⟩
    | true =>
      have hc := hp t (by simp [hres])
      simp [hres] at hc
      obtain ⟨out, hout⟩ := ih rest (joinVal acc v) (by omega)
      exact ⟨out, by simp [hres, starJoinLoop, hout]⟩

/-- A sub-parser that succeeds on some string *without consuming anything*
makes the `star` loop run forever: no amount of fuel finishes it. -/
theorem starLoop_fixed (p : Parser) (t : Str) (v : Option Val)
    (hfix : p t = (true, v, t)) :
    ∀ fuel acc, starLoop p fuel acc (p t) = none := by
  intro fuel
  induction fuel with
  | zero => intro acc; simp [hfix, starLoop]
  | succ fuel ih =>
    intro acc
    rw [hfix]
    simp only [starLoop]
    rw [← hfix] at *
    exact ih _

-- HELPER LEMMAS: chain, chain_join, any_of loops ----------------------------

/-- A failing `chain` loop hands back the chain's original input. -/
theorem chainLoop_fail (b : Bool) (in0 : Str) :
    ∀ ps acc rest, (chainLoop b in0 ps acc rest).1 = false →
      chainLoop b in0 ps acc rest = (false, none, in0) := by
  intro ps
  induction ps with
  | nil => intro acc rest h; simp [chainLoop] at h
  | cons p ps ih =>
    intro acc rest h
    rcases hres : p rest with ⟨succ, v, rest'⟩
    cases succ with
    | false => simp [chainLoop, hres]
    | true =>
      simp only [chainLoop, hres] at h ⊢
      exact ih _ _ h

/-- A `chain` loop's remainder is a suffix of the overall input, provided the
current remainder is and all sub-parsers return suffix remainders. -/
theorem chainLoop_suffix (b : Bool) (in0 : Str) :
    ∀ ps acc rest, (∀ p ∈ ps, SuffixOk p) → rest <:+ in0 →
      (chainLoop b in0 ps acc rest).2.2 <:+ in0 := by
  intro ps
  induction ps with
  | nil => intro acc rest _ hsuf; simpa [chainLoop] using hsuf
  | cons p ps ih =>
    intro acc rest hps hsuf
    rcases hres : p rest with ⟨succ, v, rest'⟩
    cases succ with
    | false => simp [chainLoop, hres]
    | true =>
      simp only [chainLoop, hres]
      have hsub : (p rest).2.2 <:+ rest := hps p (by simp) rest
      rw [hres] at hsub
      exact ih _ _ (fun q hq => hps q (by simp [hq])) (hsub.trans hsuf)

/-- A `chain` loop result is either a success carrying a list value or the
failure triple `(False, None, in0)`. -/
theorem chainLoop_shape (b : Bool) (in0 : Str) :
    ∀ ps acc rest, (∃ vs rest', chainLoop b in0 ps acc rest = (true, some (Val.vlist vs), rest')) ∨
      chainLoop b in0 ps acc rest = (false, none, in0) := by
  intro ps
  induction ps with
  | nil => intro acc rest; exact Or.inl ⟨acc, rest, by simp [chainLoop]⟩
  | cons p ps ih =>
    intro acc rest
    rcases hres : p rest with ⟨succ, v, rest'⟩
    cases succ with
    | false => exact Or.inr (by simp [chainLoop, hres])
    | true =>
      simp only [chainLoop, hres]
      exact ih _ _

/-- Like `chainLoop_fail`, for the joining variant. -/
theorem chainJoinLoop_fail (in0 : Str) :
    ∀ ps acc rest, (chainJoinLoop in0 ps acc rest).1 = false →
      chainJoinLoop in0 ps acc rest = (false, none, in0) := by
  intro ps
  induction ps with
  | nil => intro acc rest h; simp [chainJoinLoop] at h
  | cons p ps ih =>
    intro acc rest h
    rcases hres : p rest with ⟨succ, v, rest'⟩
    cases succ with
    | false => simp [chainJoinLoop, hres]
    | true =>
      simp only [chainJoinLoop, hres] at h ⊢
      exact ih _ _ h

/-- Like `chainLoop_suffix`, for the joining variant. -/
theorem chainJoinLoop_suffix (in0 : Str) :
    ∀ ps acc rest, (∀ p ∈ ps, SuffixOk p) → rest <:+ in0 →
      (chainJoinLoop in0 ps acc rest).2.2 <:+ in0 := by
  intro ps
  induction ps with
  | nil => intro acc rest _ hsuf; simpa [chainJoinLoop] using hsuf
  | cons p ps ih =>
    intro acc rest hps hsuf
    rcases hres : p rest with ⟨succ, v, rest'⟩
    cases succ with
    | false => simp [chainJoinLoop, hres]
    | true =>
      simp only [chainJoinLoop, hres]
      have hsub : (p rest).2.2 <:+ rest := hps p (by simp) rest
      rw [hres] at hsub
      exact ih _ _ (fun q hq => hps q (by simp [hq])) (hsub.trans hsuf)

/-- Like `chainLoop_shape`, for the joining variant. -/
theorem chainJoinLoop_shape (in0 : Str) :
    ∀ ps acc rest, (∃ cs rest', chainJoinLoop in0 ps acc rest = (true, some (Val.vstr cs), rest')) ∨
      chainJoinLoop in0 ps acc rest = (false, none, in0) := by
  intro ps
  induction ps with
  | nil => intro acc rest; exact Or.inl ⟨acc, rest, by simp [chainJoinLoop]⟩
  | cons p ps ih =>
    intro acc rest
    rcases hres : p rest with ⟨succ, v, rest'⟩
    cases succ with
    | false => exact Or.inr (by simp [chainJoinLoop, hres])
    | true =>
      simp only [chainJoinLoop, hres]
      exact ih _ _

/-- `any_of` loop: suffix remainder, and rollback to the original input on
overall failure. -/
theorem anyOfLoop_protocol (b : Bool) (in0 : Str) :
    ∀ ps, (∀ p ∈ ps, SuffixOk p) →
      (anyOfLoop b in0 ps).2.2 <:+ in0 ∧
      ((anyOfLoop b in0 ps).1 = false → (anyOfLoop b in0 ps).2.2 = in0) := by
  intro ps
  induction ps with
  | nil => exact fun _ => ⟨List.suffix_refl _, fun _ => rfl⟩
  | cons p ps ih =>
    intro hps
    rcases hres : p in0 with ⟨succ, v, rest⟩
    cases succ with
    | false =>
      simp only [anyOfLoop, hres]
      exact ih (fun q hq => hps q (by simp [hq]))
    | true =>
      simp only [anyOfLoop, hres]
      constructor
      · have := hps p (by simp) in0
        rw [hres] at this
        exact this
      · intro h; simp at h

-- HELPER LEMMAS: combinator-level facts -------------------------------------

theorem star_success (p : Parser) (s : Str) : (star p s).1 = true := by
  unfold star
  rcases hloop : starLoop p s.length [] (p s) with _ | ⟨vs, r⟩ <;> simp [hloop]

theorem star_value (p : Parser) (s : Str) :
    ∃ vs, (star p s).2.1 = some (Val.vlist vs) := by
  unfold star
  rcases hloop : starLoop p s.length [] (p s) with _ | ⟨vs, r⟩ <;> simp [hloop]

theorem star_protocol (p : Parser) (hp : SuffixOk p) : Protocol (star p) := by
  constructor
  · intro s
    unfold star
    rcases hloop : starLoop p s.length [] (p s) with _ | ⟨vs, r⟩
    · simp [hloop]
    · simpa [hloop] using starLoop_suffix p hp _ _ _ s (hp s) vs r hloop
  · intro s h
    have := star_success p s
    rw [h] at this
    exact absurd this (by simp)

theorem star_join_success (p : Parser) (s : Str) : (star_join p s).1 = true := by
  unfold star_join
  rcases hloop : starJoinLoop p s.length [] (p s) with _ | ⟨cs, r⟩ <;> simp [hloop]

theorem star_join_protocol (p : Parser) (hp : SuffixOk p) : Protocol (star_join p) := by
  constructor
  · intro s
    unfold star_join
    rcases hloop : starJoinLoop p s.length [] (p s) with _ | ⟨cs, r⟩
    · simp [hloop]
    · simpa [hloop] using starJoinLoop_suffix p hp _ _ _ s (hp s) cs r hloop
  · intro s h
    have := star_join_success p s
    rw [h] at this
    exact absurd this (by simp)

theorem optional_eq (p : Parser) (s : Str) :
    optional p s = (true, (p s).2.1, (p s).2.2) := by
  rcases hres : p s with ⟨succ, v, rest⟩
  simp [optional, hres]

theorem optional_protocol (p : Parser) (hp : SuffixOk p) : Protocol (optional p) := by
  constructor
  · intro s
    rw [optional_eq]
    exact hp s
  · intro s h
    rw [optional_eq] at h
    simp at h

theorem chainP_protocol (ps : List Parser) (b : Bool) (hps : ∀ p ∈ ps, SuffixOk p) :
    Protocol (chainP ps b) := by
  constructor
  · intro s
    exact chainLoop_suffix b s ps [] s hps (List.suffix_refl s)
  · intro s h
    show (chainLoop b s ps [] s).2.2 = s
    rw [chainLoop_fail b s ps [] s h]

theorem chainJoinP_protocol (ps : List Parser) (hps : ∀ p ∈ ps, SuffixOk p) :
    Protocol (chainJoinP ps) := by
  constructor
  · intro s
    exact chainJoinLoop_suffix s ps [] s hps (List.suffix_refl s)
  · intro s h
    show (chainJoinLoop s ps [] s).2.2 = s
    rw [chainJoinLoop_fail s ps [] s h]

theorem anyOfP_protocol (ps : List Parser) (b : Bool) (hps : ∀ p ∈ ps, SuffixOk p) :
    Protocol (anyOfP ps b) := by
  constructor
  · intro s
    exact (anyOfLoop_protocol b s ps hps).1
  · intro s h
    exact (anyOfLoop_protocol b s ps hps).2 h

theorem transform_protocol (p : Parser) (hp : Protocol p)
    (f : Option Val → Option (Option Val)) : Protocol (transform p f) := by
  constructor
  · intro s
    rcases hres : p s with ⟨succ, v, rest⟩
    have hsuf : rest <:+ s := by
      have := hp.1 s
      rw [hres] at this
      exact this
    cases succ with
    | false => simp [transform, hres, hsuf]
    | true =>
      rcases hf : f v with _ | w <;> simp [transform, hres, hf, hsuf]
  · intro s h
    rcases hres : p s with ⟨succ, v, rest⟩
    cases succ with
    | false =>
      have hr := hp.2 s
      rw [hres] at hr
      have hrs : rest = s := hr rfl
      simp only [transform, hres]
      exact hrs
    | true =>
      rcases hf : f v with _ | w <;> simp [transform, hres, hf] at h ⊢

theorem fails_protocol (p : Parser) : Protocol (fails p) :=
  ⟨fun _ => List.suffix_refl _, fun _ _ => rfl⟩

theorem joinList_total : ∀ vs, (∀ v ∈ vs, ∃ cs, v = some (Val.vstr cs)) →
    ∃ cs, joinList vs = some cs := by
  intro vs
  induction vs with
  | nil => exact fun _ => ⟨[], rfl⟩
  | cons v vs ih =>
    intro h
    obtain ⟨c, hc⟩ := h v (by simp)
    obtain ⟨cs, hcs⟩ := ih (fun w hw => h w (by simp [hw]))
    exact ⟨c ++ cs, by simp [joinList, hc, strOf, hcs]⟩

/-- One run of `all_whitespace`: it succeeds with a string value, leaves a
suffix of the input, and `single_whitespace` fails on that remainder (no
leading whitespace is left). -/
theorem all_whitespace_run (s : Str) :
    ∃ cs r, all_whitespace s = (true, some (Val.vstr cs), r) ∧ r <:+ s ∧
      single_whitespace r = (false, none, r) := by
  obtain ⟨⟨vs, r⟩, hloop⟩ :=
    starLoop_total single_whitespace single_whitespace_consumes s.length s [] (Nat.le_refl _)
  have hstar : star single_whitespace s = (true, some (Val.vlist vs), r) := by
    simp [star, hloop]
  have hvals : ∀ v ∈ vs, ∃ cs, v = some (Val.vstr cs) :=
    starLoop_vals single_whitespace single_whitespace_strValued _ _ _ vs r
      (fun h => single_whitespace_strValued s h) (by simp) hloop
  obtain ⟨cs, hjoin⟩ := joinList_total vs hvals
  have hrest : single_whitespace r = (false, none, r) := by
    rcases starLoop_lastFail single_whitespace _ _ _ vs r hloop with hfail | ⟨t, ht, htr⟩
    · have heq := single_whitespace_fail_eq s hfail.1
      have hr : r = s := by
        have h2 := hfail.2
        rw [heq] at h2
        simpa using h2.symm
      rw [hr]
      exact heq
    · have heq := single_whitespace_fail_eq t ht
      have hr : r = t := by
        rw [heq] at htr
        simpa using htr.symm
      rw [hr]
      exact heq
  refine ⟨cs, r, ?_, ?_, hrest⟩
  · simp [all_whitespace, transform, hstar, pyJoin, hjoin]
  · exact starLoop_suffix _ single_whitespace_protocol.1 _ _ _ s
      (single_whitespace_protocol.1 s) vs r hloop

theorem all_whitespace_protocol : Protocol all_whitespace := by
  constructor
  · intro s
    obtain ⟨cs, r, heq, hsuf, _⟩ := all_whitespace_run s
    simp [heq, hsuf]
  · intro s h
    obtain ⟨cs, r, heq, _, _⟩ := all_whitespace_run s
    rw [heq] at h
    simp at h

theorem ignore_whitespace_protocol (p : Parser) (hp : Protocol p)
    (iwt : IgnoreWhitespaceType) : Protocol (ignore_whitespace p iwt) := by
  constructor
  · intro s
    have hr0 : (if iwt = .BEFORE ∨ iwt = .AROUND then (all_whitespace s).2.2 else s) <:+ s := by
      split
      · exact all_whitespace_protocol.1 s
      · exact List.suffix_refl s
    unfold ignore_whitespace
    rcases hres : p (if iwt = .BEFORE ∨ iwt = .AROUND then (all_whitespace s).2.2 else s)
      with ⟨succ, v, rest1⟩
    cases succ with
    | false => simp [hres]
    | true =>
      have hrs : rest1 <:+ s := by
        have := hp.1 (if iwt = .BEFORE ∨ iwt = .AROUND then (all_whitespace s).2.2 else s)
        rw [hres] at this
        exact this.trans hr0
      have h2 : (if iwt = .AFTER ∨ iwt = .AROUND then (all_whitespace rest1).2.2 else rest1)
          <:+ rest1 := by
        split
        · exact all_whitespace_protocol.1 rest1
        · exact List.suffix_refl rest1
      simp only [hres]
      exact h2.trans hrs
  · intro s h
    unfold ignore_whitespace at h ⊢
    rcases hres : p (if iwt = .BEFORE ∨ iwt = .AROUND then (all_whitespace s).2.2 else s)
      with ⟨succ, v, rest1⟩
    cases succ with
    | false => simp [hres]
    | true =>
      rw [hres] at h
      simp at h

-- HELPER LEMMAS: parse_int --------------------------------------------------

theorem get_cons_ne (c : Char) (t : Str) (x : Char) (hx : c ≠ x) :
    get [x] (c :: t) = (false, none, c :: t) := by
  have h : ¬ ([x] <+: c :: t) := by
    intro h
    exact hx (List.cons_prefix_cons.mp h).1.symm
  simp [get, h]

theorem get_cons_eq (x : Char) (t : Str) :
    get [x] (x :: t) = (true, some (Val.vstr [x]), t) := by
  have h : [x] <+: x :: t := List.cons_prefix_cons.mpr ⟨rfl, List.nil_prefix⟩
  simp [get, h]

theorem digit_cons_mem (c : Char) (t : Str) (h : c ∈ "0123456789".toList) :
    digit (c :: t) = (true, some (Val.vstr [c]), t) := by
  show (if c ∈ "0123456789".toList then (true, some (Val.vstr [c]), t)
    else (false, none, c :: t)) = (true, some (Val.vstr [c]), t)
  rw [if_pos h]

theorem digit_fail (s : Str) (h : ∀ c t, s = c :: t → c ∉ "0123456789".toList) :
    digit s = (false, none, s) := by
  cases s with
  | nil => rfl
  | cons c t =>
    have hc := h c t rfl
    show (if c ∈ "0123456789".toList then (true, some (Val.vstr [c]), t)
      else (false, none, c :: t)) = (false, none, c :: t)
    rw [if_neg hc]

theorem starJoinLoop_digit :
    ∀ (ds : Str) fuel acc (r : Str), ds.length ≤ fuel →
      (∀ c ∈ ds, c ∈ "0123456789".toList) →
      (∀ c t, r = c :: t → c ∉ "0123456789".toList) →
      starJoinLoop digit fuel acc (digit (ds ++ r)) = some (acc ++ ds, r) := by
  intro ds
  induction ds with
  | nil =>
    intro fuel acc r _ _ hr
    rw [List.nil_append, digit_fail r hr]
    cases fuel <;> simp [starJoinLoop]
  | cons d ds ih =>
    intro fuel acc r hlen hds hr
    have hd : d ∈ "0123456789".toList := hds d (by simp)
    cases fuel with
    | zero => simp at hlen
    | succ fuel =>
      rw [List.cons_append, digit_cons_mem d (ds ++ r) hd]
      show starJoinLoop digit fuel (joinVal acc (some (Val.vstr [d]))) (digit (ds ++ r)) = _
      have hrec := ih fuel (acc ++ [d]) r (by simp at hlen; omega)
        (fun c hc => hds c (by simp [hc])) hr
      have hjv : joinVal acc (some (Val.vstr [d])) = acc ++ [d] := rfl
      rw [hjv, hrec]
      simp

theorem star_join_digit (ds r : Str) (hds : ∀ c ∈ ds, c ∈ "0123456789".toList)
    (hr : ∀ c t, r = c :: t → c ∉ "0123456789".toList) :
    star_join digit (ds ++ r) = (true, some (Val.vstr ds), r) := by
  unfold star_join
  rw [starJoinLoop_digit ds (ds ++ r).length [] r (by simp) hds hr]
  rfl

theorem digitsToNatAux_total : ∀ (ds : Str) acc, (∀ c ∈ ds, c ∈ "0123456789".toList) →
    ∃ n, digitsToNatAux acc ds = some n := by
  intro ds
  induction ds with
  | nil => exact fun acc _ => ⟨acc, rfl⟩
  | cons c ds ih =>
    intro acc h
    have hc : c ∈ "0123456789".toList := h c (by simp)
    obtain ⟨n, hn⟩ := ih (acc * 10 + (c.toNat - '0'.toNat)) (fun d hd => h d (by simp [hd]))
    refine ⟨n, ?_⟩
    show (if c ∈ "0123456789".toList then
      digitsToNatAux (acc * 10 + (c.toNat - '0'.toNat)) ds else none) = some n
    rw [if_pos hc]
    exact hn

theorem anyOf_sign_none (d : Char) (tl : Str) (h1 : d ≠ '-') (h2 : d ≠ '+') :
    anyOfP [get ['-'], get ['+']] false (d :: tl) = (true, none, d :: tl) := by
  show anyOfLoop false (d :: tl) [get ['-'], get ['+']] = _
  simp only [anyOfLoop, get_cons_ne d tl '-' h1, get_cons_ne d tl '+' h2]
  rfl

theorem anyOf_sign_minus (tl : Str) :
    anyOfP [get ['-'], get ['+']] false ('-' :: tl) = (true, some (Val.vstr ['-']), tl) := by
  show anyOfLoop false ('-' :: tl) [get ['-'], get ['+']] = _
  simp only [anyOfLoop, get_cons_eq '-' tl]

theorem anyOf_sign_plus (tl : Str) :
    anyOfP [get ['-'], get ['+']] false ('+' :: tl) = (true, some (Val.vstr ['+']), tl) := by
  show anyOfLoop false ('+' :: tl) [get ['-'], get ['+']] = _
  simp only [anyOfLoop, get_cons_ne '+' tl '-' (by decide), get_cons_eq '+' tl]

/-- The joined run of `parse_int`'s inner `chain_join`: the sign (if any)
followed by the digit run, with the remainder after the digits. -/
theorem chainJoin_int_run (sgn ds r : Str) (v1 : Option Val)
    (hjoin : joinVal [] v1 = sgn)
    (hp1 : anyOfP [get ['-'], get ['+']] false (sgn ++ ds ++ r) = (true, v1, ds ++ r))
    (hds : ∀ c ∈ ds, c ∈ "0123456789".toList)
    (hr : ∀ c t, r = c :: t → c ∉ "0123456789".toList) :
    chainJoinP [anyOfP [get ['-'], get ['+']] false, star_join digit] (sgn ++ ds ++ r) =
      (true, some (Val.vstr (sgn ++ ds)), r) := by
  show chainJoinLoop (sgn ++ ds ++ r) _ [] (sgn ++ ds ++ r) = _
  simp only [chainJoinLoop, hp1, hjoin, star_join_digit ds r hds hr]
  rfl

theorem pyIntOfStr_sign_digits (sgn : Str) (d : Char) (ds : Str)
    (hsgn : sgn = [] ∨ sgn = ['-'] ∨ sgn = ['+'])
    (hds : ∀ c ∈ d :: ds, c ∈ "0123456789".toList) :
    ∃ n, pyIntOfStr (sgn ++ d :: ds) = some n := by
  obtain ⟨n, hn⟩ := digitsToNatAux_total (d :: ds) 0 hds
  have hd := hds d (by simp)
  rcases hsgn with h | h | h <;> subst h
  · have h1 : ¬ d = '-' := fun he => by rw [he] at hd; exact absurd hd (by decide)
    have h2 : ¬ d = '+' := fun he => by rw [he] at hd; exact absurd hd (by decide)
    exact ⟨Int.ofNat n, by simp [pyIntOfStr, h1, h2, hn]⟩
  · exact ⟨-(Int.ofNat n), by simp [pyIntOfStr, hn]⟩
  · exact ⟨Int.ofNat n, by simp [pyIntOfStr, hn]⟩

/-- `parse_int` on an optional sign, a non-empty digit run, and a remainder
not starting with a digit: success with the converted integer. -/
theorem parse_int_success (sgn : Str) (d : Char) (ds r : Str)
    (hsgn : sgn = [] ∨ sgn = ['-'] ∨ sgn = ['+'])
    (hds : ∀ c ∈ d :: ds, c ∈ "0123456789".toList)
    (hr : ∀ c t, r = c :: t → c ∉ "0123456789".toList) :
    (pyIntOfStr (sgn ++ d :: ds)).isSome = true ∧
    parse_int (sgn ++ (d :: ds) ++ r) =
      (true, (pyIntOfStr (sgn ++ d :: ds)).map (fun n => Val.vint n), r) := by
  have hd := hds d (by simp)
  have hchain : chainJoinP [anyOfP [get ['-'], get ['+']] false, star_join digit]
      (sgn ++ (d :: ds) ++ r) = (true, some (Val.vstr (sgn ++ d :: ds)), r) := by
    rcases hsgn with h | h | h <;> subst h
    · have h1 : ¬ d = '-' := fun he => by rw [he] at hd; exact absurd hd (by decide)
      have h2 : ¬ d = '+' := fun he => by rw [he] at hd; exact absurd hd (by decide)
      exact chainJoin_int_run [] (d :: ds) r none rfl
        (by simpa using anyOf_sign_none d (ds ++ r) h1 h2) hds hr
    · exact chainJoin_int_run ['-'] (d :: ds) r (some (Val.vstr ['-'])) rfl
        (by simpa using anyOf_sign_minus ((d :: ds) ++ r)) hds hr
    · exact chainJoin_int_run ['+'] (d :: ds) r (some (Val.vstr ['+'])) rfl
        (by simpa using anyOf_sign_plus ((d :: ds) ++ r)) hds hr
  obtain ⟨n, hn⟩ := pyIntOfStr_sign_digits sgn d ds hsgn hds
  constructor
  · rw [hn]; rfl
  · simp only [parse_int, transform]
    rw [hchain]
    simp only [pyInt, hn]
    rfl

/-- `parse_int` with no digit after the optional sign: failure with full
rollback (including any consumed sign). -/
theorem parse_int_fail (s : Str)
    (h : ∀ c t, dropSign s = c :: t → c ∉ "0123456789".toList) :
    parse_int s = (false, none, s) := by
  cases s with
  | nil => rfl
  | cons c t =>
    by_cases hm : c = '-'
    · subst hm
      have hds : dropSign ('-' :: t) = t := by simp [dropSign]
      rw [hds] at h
      have hchain : chainJoinP [anyOfP [get ['-'], get ['+']] false, star_join digit]
          ('-' :: t) = (true, some (Val.vstr ['-']), t) := by
        have := chainJoin_int_run ['-'] [] t (some (Val.vstr ['-'])) rfl
          (by simpa using anyOf_sign_minus t) (by simp) h
        simpa using this
      simp only [parse_int, transform]
      rw [hchain]
      rfl
    · by_cases hp : c = '+'
      · subst hp
        have hds : dropSign ('+' :: t) = t := by simp [dropSign]
        rw [hds] at h
        have hchain : chainJoinP [anyOfP [get ['-'], get ['+']] false, star_join digit]
            ('+' :: t) = (true, some (Val.vstr ['+']), t) := by
          have := chainJoin_int_run ['+'] [] t (some (Val.vstr ['+'])) rfl
            (by simpa using anyOf_sign_plus t) (by simp) h
          simpa using this
        simp only [parse_int, transform]
        rw [hchain]
        rfl
      · have hds : dropSign (c :: t) = c :: t := by
          simp only [dropSign]
          rw [if_neg (by tauto)]
        rw [hds] at h
        have hchain : chainJoinP [anyOfP [get ['-'], get ['+']] false, star_join digit]
            (c :: t) = (true, some (Val.vstr []), c :: t) := by
          have := chainJoin_int_run [] [] (c :: t) none rfl
            (by simpa using anyOf_sign_none c t hm hp) (by simp) h
          simpa using this
        simp only [parse_int, transform]
        rw [hchain]
        rfl

-- HELPER LEMMAS: loop reductions and consumption ----------------------------

theorem starLoop_false (p : Parser) (fuel : Nat) (acc : List (Option Val))
    (v : Option Val) (r : Str) : starLoop p fuel acc (false, v, r) = some (acc, r) := by
  cases fuel <;> rfl

theorem take_n_consumes (n : Nat) (h : 0 < n) : ConsumesOnSuccess (take_n n) := by
  intro s hs
  by_cases hle : n ≤ s.length
  · simp only [take_n, if_pos hle]
    simp [List.length_drop]
    omega
  · simp [take_n, hle] at hs

theorem get_consumes (pre : Str) (h : pre ≠ []) : ConsumesOnSuccess (get pre) := by
  intro s hs
  by_cases hp : pre <+: s
  · have hlen : pre.length ≤ s.length := hp.length_le
    have hpos : 0 < pre.length := List.length_pos.mpr h
    simp only [get, if_pos hp]
    simp [List.length_drop]
    omega
  · simp [get, hp] at hs

-- HELPER LEMMAS: value presence ---------------------------------------------

theorem take_n_presence (n : Nat) : ValuePresence (take_n n) := by
  intro s
  by_cases h : n ≤ s.length <;> simp [take_n, h]

theorem get_char_in_presence (cset : Str) : ValuePresence (get_char_in cset) := by
  intro s
  cases s with
  | nil => rfl
  | cons c t => by_cases h : c ∈ cset <;> simp [get_char_in, h]

theorem get_presence (pre : Str) : ValuePresence (get pre) := by
  intro s
  by_cases h : pre <+: s <;> simp [get, h]

theorem single_whitespace_presence : ValuePresence single_whitespace := by
  intro s
  cases s with
  | nil => rfl
  | cons c t => by_cases h : c.isWhitespace <;> simp [single_whitespace, h]

theorem all_whitespace_presence : ValuePresence all_whitespace := by
  intro s
  obtain ⟨cs, r, heq, _, _⟩ := all_whitespace_run s
  simp [heq]

theorem star_presence (p : Parser) : ValuePresence (star p) := by
  intro s
  obtain ⟨vs, hv⟩ := star_value p s
  rw [hv, star_success]
  rfl

theorem chainP_presence (ps : List Parser) (b : Bool) : ValuePresence (chainP ps b) := by
  intro s
  show (chainLoop b s ps [] s).2.1.isSome = (chainLoop b s ps [] s).1
  rcases chainLoop_shape b s ps [] s with ⟨vs, r, hsh⟩ | hsh <;> rw [hsh] <;> rfl

theorem chainJoinP_presence (ps : List Parser) : ValuePresence (chainJoinP ps) := by
  intro s
  show (chainJoinLoop s ps [] s).2.1.isSome = (chainJoinLoop s ps [] s).1
  rcases chainJoinLoop_shape s ps [] s with ⟨cs, r, hsh⟩ | hsh <;> rw [hsh] <;> rfl

theorem anyOfLoop_presence (in0 : Str) :
    ∀ ps, (∀ q ∈ ps, ValuePresence q) →
      (anyOfLoop true in0 ps).2.1.isSome = (anyOfLoop true in0 ps).1 := by
  intro ps
  induction ps with
  | nil => intro _; rfl
  | cons q qs ih =>
    intro hps
    rcases hres : q in0 with ⟨succ, v, rest⟩
    cases succ with
    | false =>
      simp only [anyOfLoop, hres]
      exact ih (fun x hx => hps x (by simp [hx]))
    | true =>
      simp only [anyOfLoop, hres]
      have hq := hps q (by simp) in0
      rw [hres] at hq
      simpa using hq

theorem anyOfLoop_false_success (in0 : Str) :
    ∀ ps, (anyOfLoop false in0 ps).1 = true := by
  intro ps
  induction ps with
  | nil => rfl
  | cons q qs ih =>
    rcases hres : q in0 with ⟨succ, v, rest⟩
    cases succ with
    | false =>
      simp only [anyOfLoop, hres]
      exact ih
    | true => simp only [anyOfLoop, hres]

theorem chainJoinP_shape (ps : List Parser) (s : Str) :
    (∃ cs rest', chainJoinP ps s = (true, some (Val.vstr cs), rest')) ∨
      chainJoinP ps s = (false, none, s) :=
  chainJoinLoop_shape s ps [] s

theorem parse_int_presence : ValuePresence parse_int := by
  intro s
  rcases chainJoinP_shape [anyOfP [get ['-'], get ['+']] false, star_join digit] s
    with ⟨cs, r, hsh⟩ | hsh
  · simp only [parse_int, transform]
    rw [hsh]
    rcases hi : pyIntOfStr cs with _ | m <;> simp [pyInt, hi]
  · simp only [parse_int, transform]
    rw [hsh]
    rfl

-- CLAIMS ---------------------------------------------------------------------

/-- C1: Rollback invariant: for every combinator of the library (star,
star_join, optional, chain, chain_join, any_of, transform, ignore_whitespace,
fails) and every input string, if every sub-parser satisfies the result
protocol (the remainder is a suffix of its input, and on failure the
remainder equals its input exactly), then the combinator's result satisfies
it too: the returned remainder is a suffix of the input, and whenever
success is false the remainder is character-for-character the input, even
when inner steps had partially consumed input.  (For `star_join`, the
sub-parser is additionally assumed string-valued, as its Python type
annotation requires; a non-string value would raise `TypeError` inside the
join.) -/
theorem rollback_invariant (p : Parser) (hp : Protocol p)
    (ps : List Parser) (hps : ∀ q ∈ ps, Protocol q)
    (f : Option Val → Option (Option Val)) (b : Bool) (iwt : IgnoreWhitespaceType) :
    Protocol (star p) ∧ (StrValued p → Protocol (star_join p)) ∧ Protocol (optional p) ∧
    Protocol (chainP ps b) ∧ Protocol (chainJoinP ps) ∧ Protocol (anyOfP ps b) ∧
    Protocol (transform p f) ∧ Protocol (ignore_whitespace p iwt) ∧ Protocol (fails p) :=
  ⟨star_protocol p hp.1, fun _ => star_join_protocol p hp.1, optional_protocol p hp.1,
   chainP_protocol ps b (fun q hq => (hps q hq).1),
   chainJoinP_protocol ps (fun q hq => (hps q hq).1),
   anyOfP_protocol ps b (fun q hq => (hps q hq).1),
   transform_protocol p hp f, ignore_whitespace_protocol p hp iwt, fails_protocol p⟩

/-- Witness for the rollback invariant at concrete parsers. -/
theorem rollback_invariant_witness :
    Protocol (star digit) ∧ (StrValued digit → Protocol (star_join digit)) ∧
    Protocol (optional digit) ∧ Protocol (chainP [digit] true) ∧
    Protocol (chainJoinP [digit]) ∧ Protocol (anyOfP [digit] true) ∧
    Protocol (transform digit pyInt) ∧
    Protocol (ignore_whitespace digit IgnoreWhitespaceType.BEFORE) ∧
    Protocol (fails digit) :=
  rollback_invariant digit digit_protocol [digit]
    (fun q hq => by rw [List.mem_singleton.mp hq]; exact digit_protocol)
    pyInt true .BEFORE

/-- C2 counterexample: `noop` (a parser of this library) succeeds on "a"
without consuming anything, so the `while success` loop of `star(noop)("a")`
never exits: Python's `star(noop)("a")` does not report success — it does not
return at all. -/
theorem star_noop_diverges :
    noop "a".toList = (true, none, "a".toList) ∧ ¬ StarTerminates noop "a".toList := by
  refine ⟨rfl, ?_⟩
  rintro ⟨fuel, out, hout⟩
  rw [starLoop_fixed noop "a".toList none rfl fuel []] at hout
  exact Option.noConfusion hout

/-- C2 amended: whenever the repetition loop of `star(p)(s)` terminates — in
particular whenever `p` consumes at least one character on every success —
`star(p)(s)` reports success, returning the ordered (possibly empty) list of
collected values, with the remainder handed back by the final failing step;
when zero matches occurred, the remainder is the original input `s` (using
rollback of `p`).  `star` never reports failure when it returns. -/
theorem star_totality (p : Parser) (hp : ConsumesOnSuccess p) (hr : RollsBack p) (s : Str) :
    ∃ vs rest, starLoop p s.length [] (p s) = some (vs, rest) ∧
      star p s = (true, some (Val.vlist vs), rest) ∧
      (vs = [] → rest = s) := by
  obtain ⟨⟨vs, rest⟩, hloop⟩ := starLoop_total p hp s.length s [] (Nat.le_refl _)
  refine ⟨vs, rest, hloop, by simp [star, hloop], ?_⟩
  intro hnil
  cases hsucc : (p s).1 with
  | false =>
    rcases hres : p s with ⟨succ, v, r⟩
    rw [hres] at hsucc hloop
    have hsf : succ = false := hsucc
    subst hsf
    rw [starLoop_false] at hloop
    have h1 := Option.some.inj hloop
    have hrr : r = rest := congrArg Prod.snd h1
    have hfb := hr s
    rw [hres] at hfb
    rw [← hrr]
    exact hfb rfl
  | true =>
    obtain ⟨tail, htail, hne⟩ := starLoop_acc p s.length [] (p s) vs rest hloop
    have ht := hne hsucc
    rw [hnil] at htail
    simp at htail
    exact absurd htail ht

/-- Witness for the amended star totality, at `digit` on "12ab". -/
theorem star_totality_witness :
    ∃ vs rest, starLoop digit "12ab".toList.length [] (digit "12ab".toList) = some (vs, rest) ∧
      star digit "12ab".toList = (true, some (Val.vlist vs), rest) ∧
      (vs = [] → rest = "12ab".toList) :=
  star_totality digit digit_consumes digit_protocol.2 "12ab".toList

/-- C3 counterexample: `eof` is a base parser of this library that succeeds
on the empty input while consuming zero characters (its remainder has the
same length as its input), and the repetition loop of `star(eof)("")` never
terminates. -/
theorem star_eof_diverges :
    eof [] = (true, none, []) ∧ (eof []).2.2.length = ([] : Str).length ∧
      ¬ StarTerminates eof [] := by
  refine ⟨rfl, rfl, ?_⟩
  rintro ⟨fuel, out, hout⟩
  rw [starLoop_fixed eof [] none rfl fuel []] at hout
  exact Option.noConfusion hout

/-- C3 amended: each repetition step of `star`/`star_join` either consumes at
least one character or ends the loop via sub-parser failure only when the
sub-parser consumes on success; under this assumption the loops terminate on
every finite input.  The consuming base parsers of the library are digit,
single_whitespace, every get_char_in, take_n with n ≥ 1, and get with a
non-empty literal — but not the zero-width parsers noop and eof (see the
counterexample). -/
theorem star_termination (p : Parser) (hp : ConsumesOnSuccess p) (s : Str) :
    StarTerminates p s ∧ StarJoinTerminates p s ∧
    ConsumesOnSuccess digit ∧ ConsumesOnSuccess single_whitespace ∧
    (∀ cset, ConsumesOnSuccess (get_char_in cset)) ∧
    (∀ n, 0 < n → ConsumesOnSuccess (take_n n)) ∧
    (∀ pre : Str, pre ≠ [] → ConsumesOnSuccess (get pre)) := by
  refine ⟨?_, ?_, digit_consumes, single_whitespace_consumes, get_char_in_consumes,
    take_n_consumes, get_consumes⟩
  · obtain ⟨out, hout⟩ := starLoop_total p hp s.length s [] (Nat.le_refl _)
    exact ⟨s.length, out, hout⟩
  · obtain ⟨out, hout⟩ := starJoinLoop_total p hp s.length s [] (Nat.le_refl _)
    exact ⟨s.length, out, hout⟩

/-- Witness for star termination, at `single_whitespace` on "  x". -/
theorem star_termination_witness :
    StarTerminates single_whitespace "  x".toList ∧
    StarJoinTerminates single_whitespace "  x".toList ∧
    ConsumesOnSuccess digit ∧ ConsumesOnSuccess single_whitespace ∧
    (∀ cset, ConsumesOnSuccess (get_char_in cset)) ∧
    (∀ n, 0 < n → ConsumesOnSuccess (take_n n)) ∧
    (∀ pre : Str, pre ≠ [] → ConsumesOnSuccess (get pre)) :=
  star_termination single_whitespace single_whitespace_consumes "  x".toList

/-- C4: `parse_int` accepts an optional leading '-' or '+' followed by one or
more digits and returns the converted integer with the unconsumed suffix;
when the matched string is empty or sign-only, the integer conversion fails
and the whole parser fails with full rollback (including un-consuming the
sign), so the remainder equals the entire original input.  Concretely,
`parse_int("-50 dollars") = (true, -50, " dollars")`,
`parse_int("what?") = (false, None, "what?")` and
`parse_int("-abc") = (false, None, "-abc")`. -/
theorem parse_int_correct :
    (∀ (sgn : Str) (d : Char) (ds r : Str),
        (sgn = [] ∨ sgn = ['-'] ∨ sgn = ['+']) →
        (∀ c ∈ d :: ds, c ∈ "0123456789".toList) →
        (∀ c t, r = c :: t → c ∉ "0123456789".toList) →
        (pyIntOfStr (sgn ++ d :: ds)).isSome = true ∧
        parse_int (sgn ++ (d :: ds) ++ r) =
          (true, (pyIntOfStr (sgn ++ d :: ds)).map (fun n => Val.vint n), r)) ∧
    (∀ s : Str, (∀ c t, dropSign s = c :: t → c ∉ "0123456789".toList) →
        parse_int s = (false, none, s)) ∧
    parse_int "-50 dollars".toList = (true, some (Val.vint (-50)), " dollars".toList) ∧
    parse_int "what?".toList = (false, none, "what?".toList) ∧
    parse_int "-abc".toList = (false, none, "-abc".toList) :=
  ⟨parse_int_success, parse_int_fail, rfl, rfl, rfl⟩

/-- Witness for parse_int: a sign-and-digit success and a sign-only failure. -/
theorem parse_int_correct_witness :
    parse_int (['+'] ++ ('7' :: []) ++ ['!']) =
      (true, (pyIntOfStr (['+'] ++ '7' :: [])).map (fun n => Val.vint n), ['!']) ∧
    parse_int "x9".toList = (false, none, "x9".toList) := by
  constructor
  · exact (parse_int_correct.1 ['+'] '7' [] ['!'] (by simp) (by decide)
      (by rintro c t he; injection he with h1 h2; subst h1; decide)).2
  · refine parse_int_correct.2.1 "x9".toList ?_
    intro c t he
    have hd : dropSign "x9".toList = 'x' :: ['9'] := rfl
    rw [hd] at he
    injection he with h1 h2
    subst h1
    decide

/-- C5: `transform` error-swallows-consumption: if `p(s)` succeeds and the
mapping raises on its value (`f v = none`), `transform(p, f)(s)` returns
failure with the remainder reset to the original input `s`, revoking all of
`p`'s consumption, and no exception reaches the caller; if `p(s)` succeeds
and the mapping returns `w`, the result is success with `w` and `p`'s
remainder; if `p(s)` fails, the failure propagates with the input unchanged
(using `p`'s rollback). -/
theorem transform_error_swallows (p : Parser) (f : Option Val → Option (Option Val))
    (s : Str) (hp : RollsBack p) :
    (∀ v r, p s = (true, v, r) → f v = none → transform p f s = (false, none, s)) ∧
    (∀ v r, p s = (true, v, r) → ∀ w, f v = some w → transform p f s = (true, w, r)) ∧
    ((p s).1 = false → transform p f s = (false, (p s).2.1, s)) := by
  refine ⟨?_, ?_, ?_⟩
  · intro v r h hf
    simp only [transform]
    rw [h]
    simp only [hf]
  · intro v r h w hf
    simp only [transform]
    rw [h]
    simp only [hf]
  · intro h
    rcases hres : p s with ⟨succ, v, r⟩
    rw [hres] at h
    have hsf : succ = false := h
    subst hsf
    have hfb := hp s
    rw [hres] at hfb
    have hrs : r = s := hfb rfl
    simp only [transform]
    rw [hres, hrs]

/-- Witness for transform's error handling: joining a non-list raises inside
the mapping, and `transform` converts that into a rolled-back failure. -/
theorem transform_error_swallows_witness :
    transform digit pyJoin "5a".toList = (false, none, "5a".toList) :=
  (transform_error_swallows digit pyJoin "5a".toList digit_protocol.2).1
    (some (Val.vstr ['5'])) ['a'] rfl rfl

/-- C6 counterexample: `noop` — a library parser built by neither `optional`
nor `fails` — reports success with value `None` (and so does `eof` on the
empty input), so value-presence does not hold with only those two
exceptions. -/
theorem noop_value_absent_on_success :
    (noop []).1 = true ∧ (noop []).2.1 = none ∧
    (eof []).1 = true ∧ (eof []).2.1 = none :=
  ⟨rfl, rfl, rfl, rfl⟩

/-- C6 amended: the value is present (non-None) iff success is true for the
generators and value-producing parsers (take_n, get_char_in, get, digit,
single_whitespace, all_whitespace, parse_int) and for star, chain,
chain_join, and any_of with at_least_one=true over presence-satisfying
sub-parsers; the exceptions that may report success with value None are not
only optional and fails but also the zero-width base parsers noop and eof
and any_of with at_least_one=false. -/
theorem value_presence (n : Nat) (cset pre : Str) (p : Parser)
    (ps : List Parser) (b : Bool) (hps : ∀ q ∈ ps, ValuePresence q) :
    ValuePresence (take_n n) ∧ ValuePresence (get_char_in cset) ∧ ValuePresence (get pre) ∧
    ValuePresence digit ∧ ValuePresence single_whitespace ∧ ValuePresence all_whitespace ∧
    ValuePresence parse_int ∧ ValuePresence (star p) ∧
    ValuePresence (chainP ps b) ∧ ValuePresence (chainJoinP ps) ∧
    ValuePresence (anyOfP ps true) ∧
    (∀ s, optional p s = (true, (p s).2.1, (p s).2.2)) ∧
    (∀ s, fails p s = (!(p s).1, none, s)) ∧
    (∀ s, noop s = (true, none, s)) ∧
    (∀ s, eof s = (s.isEmpty, none, s)) ∧
    (∀ s, (anyOfP ps false s).1 = true) :=
  ⟨take_n_presence n, get_char_in_presence cset, get_presence pre,
   get_char_in_presence _, single_whitespace_presence, all_whitespace_presence,
   parse_int_presence, star_presence p, chainP_presence ps b, chainJoinP_presence ps,
   fun s => anyOfLoop_presence s ps hps, optional_eq p, fun _ => rfl, fun _ => rfl,
   fun _ => rfl, fun s => anyOfLoop_false_success s ps⟩

/-- Witness for value presence at concrete parsers. -/
theorem value_presence_witness :
    ValuePresence (take_n 1) ∧ ValuePresence (get_char_in "0123456789".toList) ∧
    ValuePresence (get "ab".toList) ∧ ValuePresence digit ∧
    ValuePresence single_whitespace ∧ ValuePresence all_whitespace ∧
    ValuePresence parse_int ∧ ValuePresence (star digit) ∧
    ValuePresence (chainP [digit] true) ∧ ValuePresence (chainJoinP [digit]) ∧
    ValuePresence (anyOfP [digit] true) ∧
    (∀ s, optional digit s = (true, (digit s).2.1, (digit s).2.2)) ∧
    (∀ s, fails digit s = (!(digit s).1, none, s)) ∧
    (∀ s, noop s = (true, none, s)) ∧
    (∀ s, eof s = (s.isEmpty, none, s)) ∧
    (∀ s, (anyOfP [digit] false s).1 = true) :=
  value_presence 1 "0123456789".toList "ab".toList digit [digit] true
    (fun q hq => by rw [List.mem_singleton.mp hq]; exact get_char_in_presence _)

/-- C7: `finalize` strictness: `finalize(p)(s)` raises a terminal error if
`p(s)` fails; on success with a non-empty remainder it raises when
`allow_unparsed_remaining` is false (the default) and returns the bare value
(discarding the leftover) when it is true; on success with an empty
remainder it returns the bare value either way. -/
theorem finalize_strict (p : Parser) (s : Str) :
    ((p s).1 = false → ∀ b, finalize p b s = Except.error ()) ∧
    (∀ v r, p s = (true, v, r) → r ≠ [] →
      finalize p false s = Except.error () ∧ finalize p true s = Except.ok v) ∧
    (∀ v, p s = (true, v, []) → ∀ b, finalize p b s = Except.ok v) := by
  refine ⟨?_, ?_, ?_⟩
  · intro h b
    rcases hres : p s with ⟨succ, v, r⟩
    rw [hres] at h
    have hsf : succ = false := h
    subst hsf
    simp only [finalize]
    rw [hres]
  · intro v r h hne
    have hlen : r.length ≠ 0 := by simpa using hne
    constructor
    · simp [finalize, h, hlen]
    · simp [finalize, h]
  · intro v h b
    simp [finalize, h]

/-- Witness for finalize strictness at `digit`. -/
theorem finalize_strict_witness :
    finalize digit false "5a".toList = Except.error () ∧
    finalize digit true "5a".toList = Except.ok (some (Val.vstr ['5'])) ∧
    finalize digit false "5".toList = Except.ok (some (Val.vstr ['5'])) :=
  ⟨((finalize_strict digit "5a".toList).2.1 (some (Val.vstr ['5'])) ['a'] rfl (by simp)).1,
   ((finalize_strict digit "5a".toList).2.1 (some (Val.vstr ['5'])) ['a'] rfl (by simp)).2,
   (finalize_strict digit "5".toList).2.2 (some (Val.vstr ['5'])) rfl false⟩

/-- C8: construction-time preconditions: `chain`, `chain_join`, and `any_of`
raise a `ValueError` immediately at combinator construction time when given
zero parsers (for `any_of`, regardless of the `at_least_one` flag), before
any input is processed; with at least one parser, construction succeeds and
returns the corresponding parser. -/
theorem construction_preconditions (ps : List Parser) (b : Bool) (h : ps ≠ []) :
    chain [] b = Except.error () ∧ chain_join [] = Except.error () ∧
    any_of [] b = Except.error () ∧
    chain ps b = Except.ok (chainP ps b) ∧ chain_join ps = Except.ok (chainJoinP ps) ∧
    any_of ps b = Except.ok (anyOfP ps b) := by
  have hlen : ¬ ps.length = 0 := fun hc => h (List.length_eq_zero.mp hc)
  exact ⟨rfl, rfl, rfl, by simp [chain, hlen], by simp [chain_join, hlen],
    by simp [any_of, hlen]⟩

/-- Witness for the construction preconditions, with `at_least_one = false`. -/
theorem construction_preconditions_witness :
    chain [] false = Except.error () ∧ chain_join [] = Except.error () ∧
    any_of [] false = Except.error () ∧
    chain [digit] false = Except.ok (chainP [digit] false) ∧
    chain_join [digit] = Except.ok (chainJoinP [digit]) ∧
    any_of [digit] false = Except.ok (anyOfP [digit] false) :=
  construction_preconditions [digit] false (by simp)

/-- C9: idempotent whitespace stripping: if `all_whitespace(s)` returns
`(true, w, r)` then `all_whitespace(r)` consumes zero further characters,
returning `(true, "", r)` — no leading whitespace remains after one pass. -/
theorem all_whitespace_idempotent (s : Str) (w : Option Val) (r : Str)
    (h : all_whitespace s = (true, w, r)) :
    all_whitespace r = (true, some (Val.vstr []), r) := by
  obtain ⟨cs, r0, heq, _, hrest⟩ := all_whitespace_run s
  rw [heq] at h
  have hr0 : r0 = r := congrArg (fun x => x.2.2) h
  rw [hr0] at hrest
  have hloop : starLoop single_whitespace r.length [] (single_whitespace r) = some ([], r) := by
    rw [hrest, starLoop_false]
  have hstar : star single_whitespace r = (true, some (Val.vlist []), r) := by
    simp [star, hloop]
  simp only [all_whitespace, transform]
  rw [hstar]
  rfl

/-- Witness for whitespace idempotence on "  a". -/
theorem all_whitespace_idempotent_witness :
    all_whitespace "a".toList = (true, some (Val.vstr []), "a".toList) :=
  all_whitespace_idempotent " a".toList (some (Val.vstr [' '])) "a".toList rfl

/-- C10: the legacy 2-tuple `transform` of `combinators.py` contains no
exception handling: when the inner parser succeeds with a non-None value and
the mapping raises, the exception propagates to the caller — unlike the
exported 3-tuple `transform` of `__init__.py`, which converts the same
situation into the in-band failure `(False, None, input)`. -/
theorem legacy_transform_escapes (p : ParserL) (f : Option Val → Option (Option Val))
    (s : Str) :
    (∀ v r, p s = (some v, r) → f (some v) = none → transformL p f s = Except.error ()) ∧
    (∀ (q : Parser) (g : Option Val → Option (Option Val)) (t : Str) (v : Val) (r : Str),
        q t = (true, some v, r) → g (some v) = none → transform q g t = (false, none, t)) := by
  constructor
  · intro v r h hf
    simp only [transformL]
    rw [h]
    simp only [hf]
  · intro q g t v r h hg
    simp only [transform]
    rw [h]
    simp only [hg]

/-- Witness for the legacy/exported transform contrast at a digit parser and
an always-raising mapping. -/
theorem legacy_transform_escapes_witness :
    transformL (get_in "0123456789".toList) (fun _ => none) "7b".toList = Except.error () ∧
    transform digit (fun _ => none) "7b".toList = (false, none, "7b".toList) :=
  ⟨(legacy_transform_escapes (get_in "0123456789".toList) (fun _ => none) "7b".toList).1
      (Val.vstr ['7']) ['b'] rfl rfl,
   (legacy_transform_escapes (get_in "0123456789".toList) (fun _ => none) "7b".toList).2
      digit (fun _ => none) "7b".toList (Val.vstr ['7']) ['b'] rfl rfl⟩

end FunctionalParser
